import Mathlib

/-!
# Verification of `get_smart_frame_list`

Shallow embedding of `python/tk_houdini_renderman/get_smart_frame_list.py`,
the smart frame-list scheduling function of tk-houdini-renderman, together
with proofs of the specification's claims about it.

The Python function receives a frame-range string and a task size, splits
the range into farm tasks, and emits the tasks' tokens in a "smart"
bisection order (first frame, last frame, then repeatedly the midpoint of
the largest remaining gap).  Python integers are modelled as `Int`
(Python `//` is `Int.fdiv`, Python 3 `round` rounds ties to even),
fallible evaluation as `Except PyError`.
-/

/-- The runtime errors the Python function can actually raise:
`int()` on a non-numeric string, `//` by zero, list indexing out of range. -/
inductive PyError where
  | valueError
  | zeroDivisionError
  | indexError
deriving DecidableEq

deriving instance DecidableEq for Except

/-- Python `round((a + b) / 2)` where `sum = a + b` is an integer: the exact
mean when `sum` is even, otherwise the even neighbour of the half-integer
mean (Python 3 `round` sends ties to the even integer). -/
def pyRoundHalf (sum : Int) : Int :=
  if sum % 2 = 0 then sum.fdiv 2
  else if (sum.fdiv 2) % 2 = 0 then sum.fdiv 2 else sum.fdiv 2 + 1

/-- Python list indexing `l[i]` on an int list: a negative index counts from
the end.  An out-of-range read would raise in Python; the gap-scan loop below
only ever indexes in range (its list always has at least two elements), so a
total default of `0` is extensionally faithful there. -/
def pyGet (l : List Int) (i : Int) : Int :=
  if i < 0 then l.getD ((l.length : Int) + i).toNat 0 else l.getD i.toNat 0

/-- One iteration of the inner gap-finding loop of `get_smart_frame_list`:
`index` is decremented by one before use (Python `index -= 1`), so iteration
`idx = 0` compares the wraparound pair `sorted_list[0] - sorted_list[-1]`;
the pair is kept when its difference strictly exceeds the best so far. -/
def pyScanStep (sorted_list : List Int) (st : (Int × Int) × Int) (idx : Nat) :
    (Int × Int) × Int :=
  let i : Int := (idx : Int) - 1
  let d := pyGet sorted_list (i + 1) - pyGet sorted_list i
  if st.2 < d then ((pyGet sorted_list i, pyGet sorted_list (i + 1)), d) else st

/-- The inner gap-finding loop of `get_smart_frame_list`: `index` runs over
`range(len(sorted_list))`, starting from a best difference of `0` and the
pair carried over from the previous outer iteration
(`two_indexes_with_largest_difference`). -/
def gapScan (sorted_list : List Int) (p0 : Int × Int) : (Int × Int) × Int :=
  (List.range sorted_list.length).foldl (pyScanStep sorted_list) (p0, 0)

/-- One iteration of the outer loop: sort `smart_frame_index_list`
ascending (Python `sorted`; on integer lists any correct ascending sort
produces the same list, so `List.insertionSort` is extensionally faithful),
run the gap scan, append the rounded midpoint of the selected pair.  The
second component is the persistent `two_indexes_with_largest_difference`. -/
def bisectStep (st : List Int × (Int × Int)) : List Int × (Int × Int) :=
  let s := st.1.insertionSort (· ≤ ·)
  let p := (gapScan s st.2).1
  (st.1 ++ [pyRoundHalf (p.1 + p.2)], p)

/-- `smart_frame_index_list` after the outer loop, as a function of
`n = len(frame_list)`: start from `[0, n - 1]`, run `n - 2` bisection
iterations (Python `range` of a negative count is empty, matching the
saturating `Nat` subtraction). -/
def smartIndexList (n : Nat) : List Int :=
  (bisectStep^[n - 2] ([0, (n : Int) - 1], (0, (n : Int) - 1))).1

/-- A farm task as built into `frame_list`: either a single-frame token or a
`start-end` span token. -/
inductive FrameTask where
  | single (n : Int)
  | span (a b : Int)
deriving DecidableEq

/-- The string token of a task, exactly as the Python f-strings render it. -/
def FrameTask.render : FrameTask → String
  | .single n => toString n
  | .span a b => toString a ++ "-" ++ toString b

/-- The inclusive integer interval `[a, …, b]` as a list (empty when `b < a`). -/
def intRange (a b : Int) : List Int :=
  (List.range (b - a + 1).toNat).map (fun k : Nat => a + (k : Int))

/-- The set of frames a task covers, as a list. -/
def FrameTask.frames : FrameTask → List Int
  | .single n => [n]
  | .span a b => intRange a b

/-- The `frame_list` construction of `get_smart_frame_list`: `full_tasks`
chunks of `task_size` frames (spans when `task_size > 1`, single frames
otherwise), then one leftover span when any frames remain. -/
def taskList (first_frame last_frame task_size : Int) : List FrameTask :=
  let total_frames := last_frame - first_frame + 1
  let full_tasks := total_frames.fdiv task_size
  let leftover_frames := total_frames - full_tasks * task_size
  (if 1 < task_size then
    (List.range full_tasks.toNat).map (fun task : Nat =>
      .span ((task : Int) * task_size + first_frame)
        ((task : Int) * task_size + task_size + first_frame - 1))
  else
    (List.range full_tasks.toNat).map (fun task : Nat => .single ((task : Int) + first_frame)))
  ++ (if 1 ≤ leftover_frames then
        [.span (full_tasks * task_size + first_frame) last_frame]
      else [])

/-- Python `sep.join(l)`. -/
def pyJoin (sep : String) : List String → String
  | [] => ""
  | x :: xs => xs.foldl (fun acc s => acc ++ sep ++ s) x

/-- Python list indexing `l[i]` on a string list, where an out-of-range read
raises `IndexError` (modelled as `none`); a negative index counts from the
end. -/
def pyGetStr (l : List String) (i : Int) : Option String :=
  let j : Int := if i < 0 then (l.length : Int) + i else i
  if j < 0 then none else l[j.toNat]?

/-- `get_smart_frame_list` after the two frame bounds have been parsed: the
division by `task_size` (which Python performs before the two-frame early
return, raising `ZeroDivisionError` on a zero task size), the two-frame
early return, the task construction, the bisection ordering and the final
token lookup (`frame_list[index]`, which raises `IndexError` when
`frame_list` is empty). -/
def smartFrameCore (first_frame last_frame task_size : Int) : Except PyError String :=
  if task_size = 0 then .error .zeroDivisionError
  else
    let total_frames := last_frame - first_frame + 1
    if total_frames = 2 then .ok (toString first_frame ++ "," ++ toString last_frame)
    else
      let frame_list := (taskList first_frame last_frame task_size).map FrameTask.render
      match (smartIndexList frame_list.length).mapM (pyGetStr frame_list) with
      | some toks => .ok (pyJoin "," toks)
      | none => .error .indexError

/-- Python `"-" in s`. -/
def pyContainsDash (s : String) : Bool := s.data.contains '-'

/-- Helper for `pySplitDash`: accumulates the current field in reverse. -/
def splitDashAux : List Char → List Char → List (List Char)
  | [], cur => [cur.reverse]
  | c :: rest, cur =>
    if c = '-' then cur.reverse :: splitDashAux rest []
    else splitDashAux rest (c :: cur)

/-- Python `s.split("-")`: the maximal `-`-free fields of `s`, in order
(adjacent, leading or trailing dashes produce empty fields, as in Python). -/
def pySplitDash (s : String) : List String :=
  (splitDashAux s.data []).map String.mk

/-- The ASCII characters Python treats as whitespace when parsing `int()`:
tab through carriage return (9-13), the file/group/record/unit separators
(28-31) and space (32). -/
def isPySpace (c : Char) : Bool :=
  decide ((9 ≤ c.toNat ∧ c.toNat ≤ 13) ∨ (28 ≤ c.toNat ∧ c.toNat ≤ 32))

/-- Python strips whitespace from both ends before parsing an integer. -/
def pyStrip (cs : List Char) : List Char :=
  ((cs.dropWhile isPySpace).reverse.dropWhile isPySpace).reverse

/-- The digit part of Python `int()` after its first digit: further digits
with single underscores allowed between digits only. -/
def pyDigitsAux : List Char → Nat → Option Nat
  | [], acc => some acc
  | ['_'], _ => none
  | '_' :: d :: rest, acc =>
    if d.isDigit then pyDigitsAux rest (10 * acc + (d.toNat - 48)) else none
  | c :: rest, acc =>
    if c.isDigit then pyDigitsAux rest (10 * acc + (c.toNat - 48)) else none

/-- The digit part of Python `int()`: one digit, then digits with single
underscores between digits. -/
def pyParseDigits : List Char → Option Nat
  | [] => none
  | c :: rest => if c.isDigit then pyDigitsAux rest (c.toNat - 48) else none

/-- Python `int()` on an ASCII string: strip whitespace, allow one optional
`+`/`-` sign, then underscore-separated decimal digits.  This is exact on
ASCII inputs; the non-ASCII decimal digits and non-ASCII whitespace `int()`
additionally accepts are outside the modelled alphabet, so statements about
rejection below carry an ASCII hypothesis.  (A field of
`rangeSpec.split("-")` never contains `-`, but the sign case is kept for
faithfulness to `int()` itself.) -/
def pyParseIntChars (cs : List Char) : Option Int :=
  match pyStrip cs with
  | '+' :: rest => (pyParseDigits rest).map Int.ofNat
  | '-' :: rest => (pyParseDigits rest).map (fun n => -(n : Int))
  | rest => (pyParseDigits rest).map Int.ofNat

/-- Python `int(c)` on a component `c` of `rangeSpec.split("-")`. -/
def pyParseInt (s : String) : Option Int := pyParseIntChars s.data

/-- The whole Python function `get_smart_frame_list`: the dash-free
pass-through, then parsing of the first two dash-separated fields (Python
`input_frame_range.split("-")[0]` and `[1]`; the dash guarantees at least
two fields, and a failed `int()` raises `ValueError`), then the core. -/
def get_smart_frame_list (input_frame_range : String) (task_size : Int) :
    Except PyError String :=
  if pyContainsDash input_frame_range = false then .ok input_frame_range
  else
    match pyParseInt ((pySplitDash input_frame_range).getD 0 ""),
          pyParseInt ((pySplitDash input_frame_range).getD 1 "") with
    | some first_frame, some last_frame => smartFrameCore first_frame last_frame task_size
    | _, _ => .error .valueError

/-- The adjacent (non-wrapping) pairs of a list, read off by index. -/
def adjPairs (S : List Int) : List (Int × Int) :=
  (List.range (S.length - 1)).map (fun t : Nat => (S.getD t 0, S.getD (t + 1) 0))

/-- The update step shared by both gap scans: keep the pair whose difference
strictly exceeds the best difference so far. -/
def gapStep (st : (Int × Int) × Int) (pr : Int × Int) : (Int × Int) × Int :=
  if st.2 < pr.2 - pr.1 then (pr, pr.2 - pr.1) else st

/-- Modelled from the spec: the simplified gap selection it prescribes in
place of the source's wraparound loop — "scan only the adjacent non-wrapping
pairs of the currently-sorted list, pick the max, first-occurrence-wins on
ties". -/
def simpleGapScan (S : List Int) : Int × Int :=
  ((adjPairs S).foldl gapStep
    ((S.getD 0 0, S.getD 1 0), S.getD 1 0 - S.getD 0 0)).1

/-- `bisectStep` with the spec's simplified gap selection in place of the
source's wraparound scan (no persistent candidate pair needed). -/
def bisectStepSimple (L : List Int) : List Int :=
  let s := L.insertionSort (· ≤ ·)
  let p := simpleGapScan s
  L ++ [pyRoundHalf (p.1 + p.2)]

/-- The bisection order computed with the spec's simplified gap selection. -/
def smartIndexListSimple (n : Nat) : List Int :=
  bisectStepSimple^[n - 2] [0, (n : Int) - 1]

/-- Modelled from the spec: the rounding rule the claim asserts for the pair
midpoint — "round((S[k] + S[k+1]) / 2) with ties at .5 rounded half-up (a
pair whose mean is x.5 yields x+1)". -/
def roundHalfUpSpec (sum : Int) : Int := (sum + 1).fdiv 2

/-- `smartFrameCore` with the spec's simplified gap selection in place of
the source's wraparound scan. -/
def smartFrameCoreSimple (first_frame last_frame task_size : Int) :
    Except PyError String :=
  if task_size = 0 then .error .zeroDivisionError
  else
    let total_frames := last_frame - first_frame + 1
    if total_frames = 2 then .ok (toString first_frame ++ "," ++ toString last_frame)
    else
      let frame_list := (taskList first_frame last_frame task_size).map FrameTask.render
      match (smartIndexListSimple frame_list.length).mapM (pyGetStr frame_list) with
      | some toks => .ok (pyJoin "," toks)
      | none => .error .indexError

/-- The invariant of the bisection loop: the index list has no duplicate,
all entries lie in `[0, n-1]`, and the two extremes are present. -/
def BisectInv (n : Nat) (L : List Int) : Prop :=
  L.Nodup ∧ (∀ x ∈ L, 0 ≤ x ∧ x ≤ (n : Int) - 1) ∧
    (0 : Int) ∈ L ∧ ((n : Int) - 1) ∈ L

/-! ## Facts about `intRange` -/

theorem intRange_length (a b : Int) : (intRange a b).length = (b - a + 1).toNat := by
  simp [intRange]

theorem mem_intRange {x a b : Int} : x ∈ intRange a b ↔ a ≤ x ∧ x ≤ b := by
  simp only [intRange, List.mem_map, List.mem_range]
  constructor
  · rintro ⟨k, hk, rfl⟩; omega
  · rintro ⟨h1, h2⟩; exact ⟨(x - a).toNat, by omega, by omega⟩

theorem intRange_nodup (a b : Int) : (intRange a b).Nodup :=
  (List.nodup_range _).map (fun i j h => by omega)

theorem intRange_append {a b c : Int} (h1 : a - 1 ≤ b) (h2 : b ≤ c) :
    intRange a b ++ intRange (b + 1) c = intRange a c := by
  have hm : (c - a + 1).toNat = (b - a + 1).toNat + (c - b).toNat := by omega
  have hn : (c - (b + 1) + 1).toNat = (c - b).toNat := by omega
  simp only [intRange, hm, hn, List.range_add, List.map_append, List.map_map]
  congr 1
  apply List.map_congr_left
  intro k hk
  simp only [Function.comp_apply]
  omega

theorem intRange_head? {a b : Int} (h : a ≤ b) : (intRange a b).head? = some a := by
  rw [List.head?_eq_getElem?]
  simp only [intRange, List.getElem?_map]
  rw [List.getElem?_range (by omega)]
  simp

theorem intRange_getLast? {a b : Int} (h : a ≤ b) : (intRange a b).getLast? = some b := by
  rw [List.getLast?_eq_getElem?]
  simp only [intRange, List.length_map, List.length_range, List.getElem?_map]
  rw [List.getElem?_range (by omega)]
  simp only [Option.map_some']
  congr 1
  omega

/-! ## Facts about Python floor division -/

theorem exists_pos_rep {a : Int} (ha : 0 < a) : ∃ m : Nat, a = Int.ofNat (m + 1) := by
  cases a with
  | ofNat k =>
    cases k with
    | zero => exact absurd ha (by decide)
    | succ m => exact ⟨m, rfl⟩
  | negSucc m => exact absurd (lt_trans ha (Int.negSucc_lt_zero m)) (lt_irrefl 0)

theorem exists_neg_rep {b : Int} (hb : b < 0) : ∃ n : Nat, b = Int.negSucc n := by
  cases b with
  | ofNat k => exact absurd hb (Int.not_lt.mpr (Int.ofNat_zero_le k))
  | negSucc n => exact ⟨n, rfl⟩

theorem fdiv_pos_neg (m n : Nat) :
    (Int.ofNat (m + 1)).fdiv (Int.negSucc n) = Int.negSucc (m / (n + 1)) := rfl

/-- Flooring division by a negative divisor overshoots: `a ≤ (a.fdiv b) * b`. -/
theorem le_fdiv_mul_of_neg {a b : Int} (ha : 0 < a) (hb : b < 0) :
    a ≤ a.fdiv b * b := by
  obtain ⟨m, rfl⟩ := exists_pos_rep ha
  obtain ⟨n, rfl⟩ := exists_neg_rep hb
  rw [fdiv_pos_neg]
  have key : m + 1 ≤ (m / (n + 1) + 1) * (n + 1) := by
    have h2 : m % (n + 1) + 1 ≤ n + 1 := Nat.mod_lt _ (Nat.succ_pos n)
    calc m + 1 = m / (n + 1) * (n + 1) + (m % (n + 1) + 1) := by
          rw [← Nat.add_assoc, Nat.div_add_mod']
    _ ≤ m / (n + 1) * (n + 1) + (n + 1) := Nat.add_le_add_left h2 _
    _ = (m / (n + 1) + 1) * (n + 1) := by ring
  calc (Int.ofNat (m + 1)) = ((m + 1 : Nat) : Int) := rfl
  _ ≤ (((m / (n + 1) + 1) * (n + 1) : Nat) : Int) := by exact_mod_cast key
  _ = Int.negSucc (m / (n + 1)) * Int.negSucc n := by
      rw [Int.negSucc_eq, Int.negSucc_eq, Int.neg_mul_neg]
      push_cast
      ring

theorem fdiv_neg_of_pos_of_neg {a b : Int} (ha : 0 < a) (hb : b < 0) : a.fdiv b ≤ -1 := by
  obtain ⟨m, rfl⟩ := exists_pos_rep ha
  obtain ⟨n, rfl⟩ := exists_neg_rep hb
  rw [fdiv_pos_neg, Int.negSucc_eq]
  have h := Int.ofNat_zero_le (m / (n + 1))
  omega

/-! ## Facts about `taskList` -/

/-- With a nonempty range and a negative task size, no task at all is built:
`range(full_tasks)` is empty and the leftover count is nonpositive. -/
theorem taskList_eq_nil_of_neg {f l ts : Int} (htotal : 0 < l - f + 1) (hts : ts < 0) :
    taskList f l ts = [] := by
  have hle := le_fdiv_mul_of_neg htotal hts
  have hfd := fdiv_neg_of_pos_of_neg htotal hts
  have htn : ((l - f + 1).fdiv ts).toNat = 0 := Int.toNat_of_nonpos (by omega)
  simp only [taskList]
  rw [if_neg (by omega : ¬ (1:Int) < ts), htn]
  simp only [List.range_zero, List.map_nil, List.nil_append]
  rw [if_neg (by linarith : ¬ (1:Int) ≤ l - f + 1 - (l - f + 1).fdiv ts * ts)]

/-- When the task size covers the whole (≥ 3 frame) range, exactly one task
is built: the span `f-l` (as a full task when `ts = total`, as the leftover
task when `ts > total`). -/
theorem taskList_single {f l ts : Int} (h3 : f + 2 ≤ l) (hts : l - f + 1 ≤ ts) :
    taskList f l ts = [.span f l] := by
  have hts1 : (1:Int) < ts := by omega
  have hr1 : List.range 1 = [0] := rfl
  rcases eq_or_lt_of_le hts with heq | hlt
  · have hfd : (l - f + 1).fdiv ts = 1 := by
      rw [heq, Int.fdiv_self (by omega)]
    simp only [taskList, if_pos hts1, hfd, Int.toNat_one, hr1, List.map_cons,
      List.map_nil, Nat.cast_zero, zero_mul, zero_add, one_mul]
    rw [if_neg (by omega : ¬ (1:Int) ≤ l - f + 1 - ts)]
    simp only [List.append_nil, List.cons.injEq, FrameTask.span.injEq, and_true, true_and]
    omega
  · have hfd : (l - f + 1).fdiv ts = 0 := by
      rw [Int.fdiv_eq_ediv _ (by omega)]
      exact Int.ediv_eq_zero_of_lt (by omega) hlt
    simp only [taskList, if_pos hts1, hfd, Int.toNat_zero, List.range_zero, List.map_nil,
      List.nil_append, zero_mul, zero_add]
    rw [if_pos (by omega : (1:Int) ≤ l - f + 1 - 0)]

theorem flatMap_singleton_eq_map {α β : Type} (g : α → β) (l : List α) :
    l.flatMap (fun a => [g a]) = l.map g := by
  induction l with
  | nil => rfl
  | cons x xs ih => simp [ih]

/-- `intRange_append`, restated with the junction point as the second
interval's left end. -/
theorem intRange_glue {a b c : Int} (hab : a ≤ b) (hbc : b ≤ c + 1) :
    intRange a (b - 1) ++ intRange b c = intRange a c := by
  have h := intRange_append (a := a) (b := b - 1) (c := c) (by omega) (by omega)
  rwa [show b - 1 + 1 = b by ring] at h

/-- The `full_tasks` span chunks tile the prefix of the range exactly. -/
theorem chunk_cover (f ts : Int) (hts : 0 < ts) (k : Nat) :
    (List.range k).flatMap
        (fun t : Nat => intRange ((t : Int) * ts + f) ((t : Int) * ts + ts + f - 1)) =
      intRange f ((k : Int) * ts + f - 1) := by
  induction k with
  | zero =>
    have h0 : ((0:Nat) : Int) * ts + f - 1 - f + 1 = 0 := by push_cast; ring
    simp [intRange, h0]
  | succ k ih =>
    rw [List.range_succ, List.flatMap_append, ih]
    simp only [List.flatMap_cons, List.flatMap_nil, List.append_nil]
    have hk0 : (0:Int) ≤ (k : Int) * ts :=
      mul_nonneg (Int.ofNat_zero_le k) (le_of_lt hts)
    have h2 : (k : Int) * ts + ts + f - 1 = ((k + 1 : Nat) : Int) * ts + f - 1 := by
      push_cast; ring
    rw [h2]
    apply intRange_glue (by omega)
    push_cast
    linarith

/-- `frame_list`'s tasks cover the whole range `[f, …, l]`, in order, with
no gap and no duplicate. -/
theorem taskList_frames_cover {f l ts : Int} (hfl : f ≤ l) (hts : 1 ≤ ts) :
    (taskList f l ts).flatMap FrameTask.frames = intRange f l := by
  have hts0 : (0:Int) < ts := by omega
  have hfd : (l - f + 1).fdiv ts = (l - f + 1) / ts := Int.fdiv_eq_ediv _ (by omega)
  have hq0 : 0 ≤ (l - f + 1) / ts := Int.ediv_nonneg (by omega) (by omega)
  have hqn : ((((l - f + 1) / ts).toNat : Nat) : Int) = (l - f + 1) / ts :=
    Int.toNat_of_nonneg hq0
  have hmod := Int.ediv_add_emod (l - f + 1) ts
  have hr0 : 0 ≤ (l - f + 1) % ts := Int.emod_nonneg _ (by omega)
  have hrlt : (l - f + 1) % ts < ts := Int.emod_lt_of_pos _ hts0
  have hcomm : (l - f + 1) / ts * ts = ts * ((l - f + 1) / ts) := mul_comm _ _
  rcases eq_or_lt_of_le hts with h1 | h1
  · -- task_size = 1: one single-frame task per frame, no leftover
    subst h1
    simp only [taskList, Int.fdiv_one, mul_one]
    rw [if_neg (lt_irrefl (1:Int)), if_neg (by omega : ¬ (1:Int) ≤ l - f + 1 - (l - f + 1))]
    simp only [List.append_nil]
    rw [List.flatMap_map]
    simp only [FrameTask.frames]
    rw [flatMap_singleton_eq_map]
    apply List.map_congr_left
    intro k _
    omega
  · -- task_size > 1: span chunks, then the leftover span if any
    simp only [taskList, if_pos h1, hfd]
    rw [List.flatMap_append, List.flatMap_map]
    simp only [FrameTask.frames]
    rw [chunk_cover f ts hts0, hqn]
    have hmul0 : (0:Int) ≤ (l - f + 1) / ts * ts := mul_nonneg hq0 (le_of_lt hts0)
    by_cases hlo : (1:Int) ≤ l - f + 1 - (l - f + 1) / ts * ts
    · rw [if_pos hlo]
      simp only [List.flatMap_cons, List.flatMap_nil, List.append_nil, FrameTask.frames]
      apply intRange_glue (by linarith) (by linarith)
    · rw [if_neg hlo]
      simp only [List.flatMap_nil, List.append_nil]
      congr 1
      push_neg at hlo
      linarith

/-- The `k`-th full task, for `k < full_tasks` and `task_size > 1`. -/
theorem taskList_getElem_full {f l ts : Int} (hts : 1 < ts) {k : Nat}
    (hk : (k : Int) < (l - f + 1).fdiv ts) :
    (taskList f l ts)[k]? =
      some (.span ((k : Int) * ts + f) ((k : Int) * ts + ts + f - 1)) := by
  have hklt : k < ((l - f + 1).fdiv ts).toNat := by omega
  simp only [taskList, if_pos hts]
  rw [List.getElem?_append_left (by simpa using hklt)]
  simp [List.getElem?_range hklt]

/-- When a leftover remains, the final task is the leftover span. -/
theorem taskList_getLast_leftover {f l ts : Int}
    (hlo : 1 ≤ (l - f + 1) - (l - f + 1).fdiv ts * ts) :
    (taskList f l ts).getLast? =
      some (.span ((l - f + 1).fdiv ts * ts + f) l) := by
  simp only [taskList]
  rw [if_pos hlo, List.getLast?_concat]

/-! ## The gap scan: wraparound loop vs simplified scan -/

theorem gapStep_snd {st : (Int × Int) × Int} (pr : Int × Int)
    (h : st.2 = st.1.2 - st.1.1) :
    (gapStep st pr).2 = (gapStep st pr).1.2 - (gapStep st pr).1.1 := by
  unfold gapStep
  split
  · rfl
  · exact h

theorem gapStep_fst_mem (st : (Int × Int) × Int) (pr : Int × Int) :
    (gapStep st pr).1 = st.1 ∨ (gapStep st pr).1 = pr := by
  unfold gapStep
  split
  · exact Or.inr rfl
  · exact Or.inl rfl

theorem gapStep_le (st : (Int × Int) × Int) (pr : Int × Int) :
    st.2 ≤ (gapStep st pr).2 := by
  unfold gapStep
  split
  · next h => exact le_of_lt h
  · exact le_refl _

theorem gapStep_ge_pr (st : (Int × Int) × Int) (pr : Int × Int) :
    pr.2 - pr.1 ≤ (gapStep st pr).2 := by
  unfold gapStep
  split
  · exact le_refl _
  · next h => omega

/-- The gap-selection fold: the running best is always the difference of the
running pair, the final pair is the initial one or an element of the list,
the best only grows, and it dominates every difference in the list. -/
theorem foldl_gapStep_spec (l : List (Int × Int)) (st : (Int × Int) × Int)
    (h : st.2 = st.1.2 - st.1.1) :
    (l.foldl gapStep st).2 = (l.foldl gapStep st).1.2 - (l.foldl gapStep st).1.1 ∧
    ((l.foldl gapStep st).1 = st.1 ∨ (l.foldl gapStep st).1 ∈ l) ∧
    st.2 ≤ (l.foldl gapStep st).2 ∧
    ∀ pr ∈ l, pr.2 - pr.1 ≤ (l.foldl gapStep st).2 := by
  induction l generalizing st with
  | nil => exact ⟨h, Or.inl rfl, le_refl _, by simp⟩
  | cons x xs ih =>
    obtain ⟨h1, h2, h3, h4⟩ := ih (gapStep st x) (gapStep_snd x h)
    simp only [List.foldl_cons]
    refine ⟨h1, ?_, le_trans (gapStep_le st x) h3, ?_⟩
    · rcases h2 with h2 | h2
      · rcases gapStep_fst_mem st x with hh | hh
        · exact Or.inl (h2.trans hh)
        · exact Or.inr (by rw [h2, hh]; exact List.mem_cons_self x xs)
      · exact Or.inr (List.mem_cons_of_mem x h2)
    · intro pr hpr
      rcases List.mem_cons.mp hpr with rfl | hpr
      · exact le_trans (gapStep_ge_pr st pr) h3
      · exact h4 pr hpr

/-- Starting the fold from best `0` or from the first pair and its (positive)
difference gives the same result. -/
theorem foldl_gapStep_zero_init (l : List (Int × Int)) (p0 pr : Int × Int)
    (hpos : 0 < pr.2 - pr.1) :
    (pr :: l).foldl gapStep (p0, 0) = (pr :: l).foldl gapStep (pr, pr.2 - pr.1) := by
  have e1 : gapStep (p0, 0) pr = (pr, pr.2 - pr.1) := by
    unfold gapStep
    rw [if_pos hpos]
  have e2 : gapStep (pr, pr.2 - pr.1) pr = (pr, pr.2 - pr.1) := by
    unfold gapStep
    rw [if_neg (lt_irrefl _)]
  simp only [List.foldl_cons, e1, e2]

/-- Iteration 0 of the inner loop is the wraparound comparison
`sorted[0] - sorted[-1]`; with a best of `0` and the list's last entry above
its first, it never updates the candidate pair. -/
theorem pyScanStep_zero (S : List Int) (p0 : Int × Int) (hlen : 1 ≤ S.length)
    (hwrap : S.getD 0 0 < S.getD (S.length - 1) 0) :
    pyScanStep S (p0, 0) 0 = (p0, 0) := by
  have h1 : pyGet S (((0:Nat) : Int) - 1 + 1) = S.getD 0 0 := by
    norm_num [pyGet]
  have h2 : pyGet S (((0:Nat) : Int) - 1) = S.getD (S.length - 1) 0 := by
    have he : (((0:Nat) : Int) - 1) = -1 := by norm_num
    rw [he]
    unfold pyGet
    rw [if_pos (by norm_num : (-1:Int) < 0)]
    congr 1
    omega
  simp only [pyScanStep, h1, h2]
  rw [if_neg (by omega)]

/-- Iteration `t + 1` of the inner loop is exactly `gapStep` on the adjacent
pair `(sorted[t], sorted[t+1])`. -/
theorem pyScanStep_succ (S : List Int) (st : (Int × Int) × Int) (t : Nat) :
    pyScanStep S st (t + 1) = gapStep st (S.getD t 0, S.getD (t + 1) 0) := by
  have h1 : ((t + 1 : Nat) : Int) - 1 = (t : Int) := by push_cast; ring
  have h2 : pyGet S ((t : Nat) : Int) = S.getD t 0 := by
    unfold pyGet
    rw [if_neg (Int.not_lt.mpr (Int.ofNat_zero_le t)), Int.toNat_ofNat]
  have h3 : pyGet S (((t : Nat) : Int) + 1) = S.getD (t + 1) 0 := by
    unfold pyGet
    rw [if_neg (by omega), Int.toNat_ofNat_add_one]
  simp only [pyScanStep, gapStep, h1, h2, h3]

/-- The wraparound inner loop is the pure adjacent-pair fold: the wraparound
comparison is a no-op and the remaining iterations scan the adjacent pairs
left to right. -/
theorem gapScan_eq_adjPairs_foldl (S : List Int) (p0 : Int × Int)
    (hlen : 2 ≤ S.length) (hwrap : S.getD 0 0 < S.getD (S.length - 1) 0) :
    gapScan S p0 = (adjPairs S).foldl gapStep (p0, 0) := by
  obtain ⟨m, hm⟩ : ∃ m, S.length = m + 1 := ⟨S.length - 1, by omega⟩
  unfold gapScan adjPairs
  rw [hm, List.range_succ_eq_map, List.foldl_cons,
    pyScanStep_zero S p0 (by omega) hwrap, Nat.add_sub_cancel]
  simp only [List.foldl_map, Nat.succ_eq_add_one]
  congr 1
  funext st t
  exact pyScanStep_succ S st t

/-- Strict monotonicity of indexed reads in a strictly sorted list. -/
theorem sorted_lt_getD {S : List Int} (hs : S.Sorted (· < ·)) {i j : Nat}
    (hij : i < j) (hj : j < S.length) : S.getD i 0 < S.getD j 0 := by
  have hi : i < S.length := lt_trans hij hj
  rw [List.getD_eq_getElem _ _ hi, List.getD_eq_getElem _ _ hj]
  exact List.pairwise_iff_getElem.mp hs i j hi hj hij

/-- C9's core fact: on a strictly sorted list the wraparound loop selects
exactly the pair of the simplified left-to-right scan, whatever candidate
pair was carried in. -/
theorem gapScan_eq_simpleGapScan {S : List Int} (p0 : Int × Int)
    (hlen : 2 ≤ S.length) (hs : S.Sorted (· < ·)) :
    (gapScan S p0).1 = simpleGapScan S := by
  have hwrap : S.getD 0 0 < S.getD (S.length - 1) 0 :=
    sorted_lt_getD hs (by omega) (by omega)
  have hd0 : 0 < S.getD 1 0 - S.getD 0 0 := by
    have := sorted_lt_getD hs (show 0 < 1 by omega) hlen
    omega
  rw [gapScan_eq_adjPairs_foldl S p0 hlen hwrap]
  unfold simpleGapScan
  apply congrArg Prod.fst
  obtain ⟨m, hm⟩ : ∃ m, S.length - 1 = m + 1 := ⟨S.length - 2, by omega⟩
  have hcons : adjPairs S = (S.getD 0 0, S.getD 1 0) ::
      (List.range m).map (fun t : Nat => (S.getD (t + 1) 0, S.getD (t + 1 + 1) 0)) := by
    unfold adjPairs
    rw [hm, List.range_succ_eq_map, List.map_cons, List.map_map]
    rfl
  rw [hcons]
  exact foldl_gapStep_zero_init _ p0 _ hd0

/-- What the simplified scan returns: an adjacent pair of the list whose
difference dominates every adjacent difference. -/
theorem simpleGapScan_spec (S : List Int) (hlen : 2 ≤ S.length) :
    (∃ t : Nat, t + 1 < S.length ∧
        simpleGapScan S = (S.getD t 0, S.getD (t + 1) 0)) ∧
    (∀ t : Nat, t + 1 < S.length →
        S.getD (t + 1) 0 - S.getD t 0 ≤
          (simpleGapScan S).2 - (simpleGapScan S).1) := by
  obtain ⟨h1, h2, _h3, h4⟩ := foldl_gapStep_spec (adjPairs S)
    ((S.getD 0 0, S.getD 1 0), S.getD 1 0 - S.getD 0 0) rfl
  have hmem : ∀ pr : Int × Int, pr ∈ adjPairs S →
      ∃ t : Nat, t + 1 < S.length ∧ pr = (S.getD t 0, S.getD (t + 1) 0) := by
    intro pr hpr
    obtain ⟨t, hti, hte⟩ := List.mem_map.mp hpr
    exact ⟨t, by have := List.mem_range.mp hti; omega, hte.symm⟩
  constructor
  · rcases h2 with h2 | h2
    · exact ⟨0, by omega, by unfold simpleGapScan; rw [h2]⟩
    · obtain ⟨t, ht, he⟩ := hmem _ h2
      exact ⟨t, ht, by unfold simpleGapScan; rw [he]⟩
  · intro t ht
    have hin : (S.getD t 0, S.getD (t + 1) 0) ∈ adjPairs S := by
      unfold adjPairs
      exact List.mem_map.mpr ⟨t, List.mem_range.mpr (by omega), rfl⟩
    have := h4 _ hin
    unfold simpleGapScan
    rw [← h1]
    exact this

/-! ## The bisection invariant -/

theorem getD_sub_le_of_adj {S : List Int}
    (h : ∀ t : Nat, t + 1 < S.length → S.getD (t + 1) 0 - S.getD t 0 ≤ 1) :
    ∀ k : Nat, k < S.length → S.getD k 0 - S.getD 0 0 ≤ (k : Int) := by
  intro k
  induction k with
  | zero => intro _; omega
  | succ k ih =>
    intro hk
    have h1 := h k hk
    have h2 := ih (by omega)
    push_cast
    omega

/-- Pigeonhole: a strictly increasing list from `0` to `n-1` that is shorter
than `n` has an adjacent gap of at least 2. -/
theorem exists_gap_ge_two {n : Nat} {S : List Int}
    (h0 : S.getD 0 0 = 0) (hlast : S.getD (S.length - 1) 0 = (n : Int) - 1)
    (hlen : 2 ≤ S.length) (hlt : S.length < n) :
    ∃ t : Nat, t + 1 < S.length ∧ 2 ≤ S.getD (t + 1) 0 - S.getD t 0 := by
  by_contra hc
  push_neg at hc
  have hb := getD_sub_le_of_adj (fun t ht => by have := hc t ht; omega)
    (S.length - 1) (by omega)
  rw [h0, hlast] at hb
  omega

/-- The Python rounding of the midpoint of a pair at distance ≥ 2 lies
strictly between the pair. -/
theorem pyRoundHalf_between {a b : Int} (h : 2 ≤ b - a) :
    a < pyRoundHalf (a + b) ∧ pyRoundHalf (a + b) < b := by
  have h2 : (a + b).fdiv 2 = (a + b) / 2 := Int.fdiv_eq_ediv _ (by norm_num)
  unfold pyRoundHalf
  rw [h2]
  split_ifs <;> omega

/-- Nothing in a strictly sorted list lies strictly between two adjacent
entries. -/
theorem sorted_not_mem_between {S : List Int} (hs : S.Sorted (· < ·)) {t : Nat}
    (ht : t + 1 < S.length) {x : Int} (hx1 : S.getD t 0 < x)
    (hx2 : x < S.getD (t + 1) 0) : x ∉ S := by
  intro hmem
  obtain ⟨j, hj, hje⟩ := List.mem_iff_getElem.mp hmem
  have hjD : S.getD j 0 = x := by rw [List.getD_eq_getElem _ _ hj, hje]
  rcases Nat.lt_or_ge j (t + 1) with hcase | hcase
  · rcases Nat.lt_or_ge j t with hjt | hjt
    · have := sorted_lt_getD hs hjt (by omega)
      omega
    · have hjt' : j = t := by omega
      subst hjt'
      omega
  · rcases Nat.lt_or_ge (t + 1) j with hjt | hjt
    · have := sorted_lt_getD hs hjt hj
      omega
    · have hj' : j = t + 1 := by omega
      subst hj'
      omega

theorem getD_mem_of_lt {S : List Int} {i : Nat} (h : i < S.length) :
    S.getD i 0 ∈ S := by
  rw [List.getD_eq_getElem _ _ h]
  exact List.getElem_mem h

/-- The first entry of a strictly sorted list is its minimum. -/
theorem sorted_getD_head {S : List Int} (hs : S.Sorted (· < ·)) {x : Int}
    (hxmem : x ∈ S) (hlb : ∀ y ∈ S, x ≤ y) : S.getD 0 0 = x := by
  obtain ⟨j, hj, hje⟩ := List.mem_iff_getElem.mp hxmem
  rcases Nat.eq_zero_or_pos j with h0 | hpos
  · subst h0
    rw [List.getD_eq_getElem _ _ hj, hje]
  · have hlt := sorted_lt_getD hs hpos hj
    have hge := hlb (S.getD 0 0) (getD_mem_of_lt (by omega))
    rw [List.getD_eq_getElem _ _ hj, hje] at hlt
    omega

/-- The last entry of a strictly sorted list is its maximum. -/
theorem sorted_getD_last {S : List Int} (hs : S.Sorted (· < ·)) {x : Int}
    (hxmem : x ∈ S) (hub : ∀ y ∈ S, y ≤ x) : S.getD (S.length - 1) 0 = x := by
  obtain ⟨j, hj, hje⟩ := List.mem_iff_getElem.mp hxmem
  rcases Nat.lt_or_ge j (S.length - 1) with hlt | hge
  · have hlt2 := sorted_lt_getD hs hlt (by omega)
    have hle := hub (S.getD (S.length - 1) 0) (getD_mem_of_lt (by omega))
    rw [List.getD_eq_getElem _ _ hj, hje] at hlt2
    omega
  · have hj' : j = S.length - 1 := by omega
    subst hj'
    rw [List.getD_eq_getElem _ _ hj, hje]

/-- Sorting a duplicate-free integer list yields a strictly sorted
permutation of it. -/
theorem insertionSort_facts {L : List Int} (hnd : L.Nodup) :
    (L.insertionSort (· ≤ ·)).Sorted (· < ·) ∧
    (L.insertionSort (· ≤ ·)).Perm L ∧
    (L.insertionSort (· ≤ ·)).length = L.length := by
  have hperm := List.perm_insertionSort (· ≤ ·) L
  have hsorted := List.sorted_insertionSort (· ≤ ·) L
  have hnd2 : (L.insertionSort (· ≤ ·)).Nodup := hperm.symm.nodup hnd
  exact ⟨(hsorted.and hnd2).imp (fun h => lt_of_le_of_ne h.1 h.2),
    hperm, hperm.length_eq⟩

/-- The master induction on the bisection loop: after `k ≤ n-2` iterations
the index list satisfies the invariant, has length `k + 2`, and agrees with
the run that uses the spec's simplified gap selection. -/
theorem bisect_iterate_spec (n : Nat) (hn : 3 ≤ n) :
    ∀ k : Nat, k ≤ n - 2 →
      BisectInv n ((bisectStep^[k]) ([0, (n:Int) - 1], (0, (n:Int) - 1))).1 ∧
      ((bisectStep^[k]) ([0, (n:Int) - 1], (0, (n:Int) - 1))).1.length = k + 2 ∧
      (bisectStepSimple^[k]) [0, (n:Int) - 1] =
        ((bisectStep^[k]) ([0, (n:Int) - 1], (0, (n:Int) - 1))).1 := by
  intro k
  induction k with
  | zero =>
    intro _
    refine ⟨⟨?_, ?_, ?_, ?_⟩, rfl, rfl⟩
    · refine List.nodup_cons.mpr ⟨?_, List.nodup_singleton _⟩
      simp only [List.mem_singleton]
      omega
    · intro x hx
      rcases List.mem_cons.mp hx with rfl | hx
      · omega
      · rcases List.mem_singleton.mp hx with rfl
        omega
    · exact List.mem_cons_self _ _
    · exact List.mem_cons_of_mem _ (List.mem_singleton.mpr rfl)
  | succ k ih =>
    intro hk
    obtain ⟨⟨hnd, hbounds, h0mem, hlastmem⟩, hlen, hsim⟩ := ih (by omega)
    set st := (bisectStep^[k]) ([0, (n:Int) - 1], (0, (n:Int) - 1)) with hst
    obtain ⟨hsortlt, hperm, hlens⟩ := insertionSort_facts hnd
    set S := st.1.insertionSort (· ≤ ·) with hS
    have hSlen : 2 ≤ S.length := by rw [hlens, hlen]; omega
    have hSlt : S.length < n := by rw [hlens, hlen]; omega
    have hhead : S.getD 0 0 = 0 :=
      sorted_getD_head hsortlt (hperm.mem_iff.mpr h0mem)
        (fun y hy => (hbounds y (hperm.subset hy)).1)
    have hlast : S.getD (S.length - 1) 0 = (n:Int) - 1 :=
      sorted_getD_last hsortlt (hperm.mem_iff.mpr hlastmem)
        (fun y hy => (hbounds y (hperm.subset hy)).2)
    obtain ⟨⟨t, ht, hpair⟩, hmax⟩ := simpleGapScan_spec S hSlen
    obtain ⟨tg, htg, hge2⟩ := exists_gap_ge_two hhead hlast hSlen hSlt
    have hgap : 2 ≤ S.getD (t + 1) 0 - S.getD t 0 := by
      have := le_trans hge2 (hmax tg htg)
      rw [hpair] at this
      exact this
    have hscan : (gapScan S st.2).1 = simpleGapScan S :=
      gapScan_eq_simpleGapScan st.2 hSlen hsortlt
    have hstep : (bisectStep st).1 =
        st.1 ++ [pyRoundHalf (S.getD t 0 + S.getD (t + 1) 0)] := by
      show st.1 ++ [pyRoundHalf ((gapScan S st.2).1.1 + (gapScan S st.2).1.2)] = _
      rw [hscan, hpair]
    have hstepsimple : bisectStepSimple st.1 =
        st.1 ++ [pyRoundHalf (S.getD t 0 + S.getD (t + 1) 0)] := by
      show st.1 ++ [pyRoundHalf ((simpleGapScan S).1 + (simpleGapScan S).2)] = _
      rw [hpair]
    set m := pyRoundHalf (S.getD t 0 + S.getD (t + 1) 0) with hm
    have hbet : S.getD t 0 < m ∧ m < S.getD (t + 1) 0 := pyRoundHalf_between hgap
    have hnotmem : m ∉ st.1 := fun hmem =>
      sorted_not_mem_between hsortlt ht hbet.1 hbet.2 (hperm.mem_iff.mpr hmem)
    have hbm : 0 ≤ m ∧ m ≤ (n:Int) - 1 := by
      have h1 := (hbounds _ (hperm.subset (getD_mem_of_lt (show t < S.length by omega)))).1
      have h2 := (hbounds _ (hperm.subset (getD_mem_of_lt ht))).2
      omega
    rw [Function.iterate_succ_apply', Function.iterate_succ_apply', hsim,
      hstepsimple, hstep]
    refine ⟨⟨?_, ?_, ?_, ?_⟩, ?_, rfl⟩
    · rw [List.nodup_append]
      exact ⟨hnd, List.nodup_singleton _, by
        intro a ha hb
        rcases List.mem_singleton.mp hb with rfl
        exact hnotmem ha⟩
    · intro x hx
      rcases List.mem_append.mp hx with hx | hx
      · exact hbounds x hx
      · rcases List.mem_singleton.mp hx with rfl
        exact hbm
    · exact List.mem_append_left _ h0mem
    · exact List.mem_append_left _ hlastmem
    · rw [List.length_append, hlen]
      rfl

/-- For `n ≥ 3` the produced index order satisfies the invariant, has length
`n`, and agrees with the simplified-scan variant. -/
theorem smartIndexList_spec (n : Nat) (hn : 3 ≤ n) :
    BisectInv n (smartIndexList n) ∧ (smartIndexList n).length = n ∧
    smartIndexListSimple n = smartIndexList n := by
  obtain ⟨hInv, hlen, hsim⟩ := bisect_iterate_spec n hn (n - 2) (le_refl _)
  exact ⟨hInv, by rw [smartIndexList, hlen]; omega, hsim⟩

/-- For every `n ≥ 2` the produced index order is a permutation of
`0, …, n-1`. -/
theorem smartIndexList_perm (n : Nat) (hn : 2 ≤ n) :
    (smartIndexList n).Perm (intRange 0 ((n : Int) - 1)) := by
  rcases eq_or_lt_of_le hn with h2 | h3
  · rw [← h2]
    decide
  · obtain ⟨⟨hnd, hbounds, _, _⟩, hlen, _⟩ := smartIndexList_spec n h3
    have hsub : smartIndexList n ⊆ intRange 0 ((n:Int) - 1) := fun x hx =>
      mem_intRange.mpr ⟨(hbounds x hx).1, (hbounds x hx).2⟩
    exact (List.subperm_of_subset hnd hsub).perm_of_length_le
      (by rw [intRange_length, hlen]; omega)

/-- The wraparound comparison never changes the final order: the simplified
formulation produces the identical index order for every task count. -/
theorem smartIndexListSimple_eq (n : Nat) :
    smartIndexListSimple n = smartIndexList n := by
  rcases Nat.lt_or_ge n 3 with h | h
  · have h0 : n - 2 = 0 := by omega
    rw [smartIndexListSimple, smartIndexList, h0]
    rfl
  · exact (smartIndexList_spec n h).2.2

theorem bisectStep_fst (st : List Int × (Int × Int)) :
    ∃ m : Int, (bisectStep st).1 = st.1 ++ [m] := ⟨_, rfl⟩

/-- The bisection loop only ever appends: the initial `[0, n-1]` stays the
prefix of the order. -/
theorem iterate_bisectStep_prefix (st : List Int × (Int × Int)) (k : Nat) :
    ∃ r : List Int, ((bisectStep^[k]) st).1 = st.1 ++ r := by
  induction k with
  | zero => exact ⟨[], (List.append_nil _).symm⟩
  | succ k ih =>
    obtain ⟨r, hr⟩ := ih
    obtain ⟨m, hm⟩ := bisectStep_fst ((bisectStep^[k]) st)
    rw [Function.iterate_succ_apply', hm, hr, List.append_assoc]
    exact ⟨r ++ [m], rfl⟩

/-! ## Claims about degenerate inputs and input validation -/

/-- C2: `computeSmartFrameList "1001-1005" 1` returns exactly the string
`"1001,1005,1003,1002,1004"` (the documented example). -/
theorem claim_C2_documented_example :
    get_smart_frame_list "1001-1005" 1 = .ok "1001,1005,1003,1002,1004" := by decide

/-- C3 counterexample: `computeSmartFrameList("abc", 1)` does not signal any
error — the dash-free non-numeric input is returned unchanged, so the claim
that every malformed `rangeSpec` fails with an `InvalidRangeFormat` error is
false. -/
theorem claim_C3_counterexample : get_smart_frame_list "abc" 1 = .ok "abc" := by decide

/-- C3 (amended): the function performs no format validation of its own.
A `rangeSpec` without a dash — numeric or not — is returned unchanged for
every task size; when a dash is present and `int()` fails on one of the
first two dash-separated fields, the call fails with the parse error
(`ValueError`).  The statement is restricted to ASCII inputs, on which the
embedded `int()` (whitespace, optional sign, underscore-separated digits)
is exact. -/
theorem claim_C3_invalid_range (s : String) (task_size : Int)
    (_hascii : ∀ c ∈ s.data, c.toNat < 128) :
    (pyContainsDash s = false → get_smart_frame_list s task_size = .ok s) ∧
    (pyContainsDash s = true →
      (pyParseInt ((pySplitDash s).getD 0 "") = none ∨
       pyParseInt ((pySplitDash s).getD 1 "") = none) →
      get_smart_frame_list s task_size = .error .valueError) := by
  constructor
  · intro h
    unfold get_smart_frame_list
    rw [h]
    rfl
  · intro h hp
    unfold get_smart_frame_list
    rw [h]
    simp only [Bool.true_eq_false, if_false]
    rcases hp with hp | hp
    · rw [hp]
    · rw [hp]
      cases pyParseInt ((pySplitDash s).getD 0 "") <;> rfl

/-- C3 witness: a dashed range with a non-numeric field fails with
`ValueError`. -/
theorem claim_C3_witness : get_smart_frame_list "a-b" 1 = .error .valueError :=
  (claim_C3_invalid_range "a-b" 1 (by decide)).2 (by decide) (Or.inl (by decide))

/-- C4 counterexample: `computeSmartFrameList("1001-1002", -1)` has a
negative task size on a valid range yet succeeds, returning `"1001,1002"`
from the two-frame early return — so the claim that every `taskSize ≤ 0`
fails is false. -/
theorem claim_C4_counterexample :
    get_smart_frame_list "1001-1002" (-1) = .ok "1001,1002" := by decide

/-- C4 (amended): on a valid range, task size `0` always fails — with
`ZeroDivisionError`, raised by `total_frames // task_size` — and a negative
task size fails with `IndexError` (no task is built, so the final
`frame_list[0]` lookup is out of range) unless the range spans exactly two
frames, in which case the early return still succeeds. -/
theorem claim_C4_invalid_task_size (f l ts : Int) (hfl : f ≤ l) :
    (ts = 0 → smartFrameCore f l ts = .error .zeroDivisionError) ∧
    (ts < 0 → l - f + 1 ≠ 2 → smartFrameCore f l ts = .error .indexError) ∧
    (ts < 0 → l - f + 1 = 2 →
      smartFrameCore f l ts = .ok (toString f ++ "," ++ toString l)) := by
  refine ⟨fun h0 => by simp [smartFrameCore, h0], ?_, ?_⟩
  · intro hneg hne
    have hnil := taskList_eq_nil_of_neg (by omega : 0 < l - f + 1) hneg
    simp only [smartFrameCore]
    rw [if_neg (by omega : ¬ ts = 0), if_neg hne, hnil]
    rfl
  · intro hneg heq
    simp only [smartFrameCore]
    rw [if_neg (by omega : ¬ ts = 0), if_pos heq]

/-- C4 witness: a negative task size on a fiveframe range fails with
`IndexError`. -/
theorem claim_C4_witness : smartFrameCore 1001 1005 (-1) = .error .indexError :=
  (claim_C4_invalid_task_size 1001 1005 (-1) (by decide)).2.1 (by decide) (by decide)

/-- C7 counterexample: `computeSmartFrameList("1001-1002", 0)` does not
return `"1001,1002"`: the division by `task_size` runs before the two-frame
early return and raises `ZeroDivisionError`, so the claim's "for every
taskSize" is false. -/
theorem claim_C7_counterexample :
    get_smart_frame_list "1001-1002" 0 = .error .zeroDivisionError := by decide

/-- C7 (amended): `computeSmartFrameList("1001", t)` returns `"1001"`
unchanged for EVERY task size `t` — zero included, since the dash check
precedes the division — and `computeSmartFrameList("1001-1002", t)` returns
`"1001,1002"` for every NONZERO task size `t`. -/
theorem claim_C7_degenerate_pass_through (task_size : Int) :
    get_smart_frame_list "1001" task_size = .ok "1001" ∧
    (task_size ≠ 0 →
      get_smart_frame_list "1001-1002" task_size = .ok "1001,1002") := by
  constructor
  · rfl
  · intro h
    have h2 : get_smart_frame_list "1001-1002" task_size =
        smartFrameCore 1001 1002 task_size := rfl
    rw [h2]
    simp only [smartFrameCore]
    rw [if_neg h, if_pos (by norm_num : (1002:Int) - 1001 + 1 = 2)]
    rfl

/-- C7 witness: the single-frame pass-through even at task size 0, and the
two-frame early return at task size 5. -/
theorem claim_C7_witness :
    get_smart_frame_list "1001" 0 = .ok "1001" ∧
    get_smart_frame_list "1001-1002" 5 = .ok "1001,1002" :=
  ⟨(claim_C7_degenerate_pass_through 0).1,
    (claim_C7_degenerate_pass_through 5).2 (by decide)⟩

/-- C10: whenever the task size reaches the whole (at least 3 frame) range,
exactly one task is built and its token is emitted twice: `"F-L,F-L"`. -/
theorem claim_C10_single_task_doubled (f l ts : Int) (h3 : f + 2 ≤ l)
    (hts : l - f + 1 ≤ ts) :
    (taskList f l ts).length = 1 ∧
    smartFrameCore f l ts =
      .ok (toString f ++ "-" ++ toString l ++ "," ++
           (toString f ++ "-" ++ toString l)) := by
  have hsingle := taskList_single h3 hts
  refine ⟨by rw [hsingle]; rfl, ?_⟩
  simp only [smartFrameCore]
  rw [if_neg (by omega : ¬ ts = 0), if_neg (by omega : ¬ l - f + 1 = 2), hsingle]
  rfl

/-- C10 witness: `smartFrameCore 1001 1005 5` doubles the single token. -/
theorem claim_C10_witness :
    smartFrameCore 1001 1005 5 = .ok "1001-1005,1001-1005" := by
  have h := claim_C10_single_task_doubled 1001 1005 5 (by decide) (by decide)
  exact h.2

/-! ## Assembling the whole-function properties -/

/-- The final rendering loop succeeds when every index is in range, and
returns the indexed tokens. -/
theorem mapM_pyGetStr_of_bounds (frame_list : List String) (order : List Int)
    (h : ∀ o ∈ order, 0 ≤ o ∧ o < (frame_list.length : Int)) :
    order.mapM (pyGetStr frame_list) =
      some (order.map (fun o => frame_list.getD o.toNat "")) := by
  induction order with
  | nil => rfl
  | cons o os ih =>
    have ho := h o (List.mem_cons_self _ _)
    have hlt : o.toNat < frame_list.length := by omega
    have hgo : pyGetStr frame_list o = some (frame_list.getD o.toNat "") := by
      simp only [pyGetStr]
      rw [if_neg (by omega : ¬ o < 0), if_neg (by omega : ¬ o < 0),
        List.getElem?_eq_getElem hlt, List.getD_eq_getElem _ _ hlt]
    rw [List.mapM_cons, hgo, ih (fun x hx => h x (List.mem_cons_of_mem _ hx))]
    rfl

/-- Reading a list at every index of `0, …, len-1` in order reproduces it. -/
theorem map_getD_full_range {α : Type} (d : α) (tl : List α) (hne : 1 ≤ tl.length) :
    (intRange 0 ((tl.length : Int) - 1)).map (fun o => tl.getD o.toNat d) = tl := by
  apply List.ext_getElem
  · rw [List.length_map, intRange_length]
    omega
  · intro i h1 h2
    rw [List.getElem_map]
    have hb : i < (intRange 0 ((tl.length : Int) - 1)).length := by
      rwa [List.length_map] at h1
    have hi : (intRange 0 ((tl.length : Int) - 1))[i] = ((i : Nat) : Int) := by
      simp only [intRange, List.getElem_map, List.getElem_range]
      omega
    rw [hi, Int.toNat_ofNat]
    exact List.getD_eq_getElem _ _ h2

theorem getD_map_render (tl : List FrameTask) {j : Nat} (hj : j < tl.length) :
    (tl.map FrameTask.render).getD j "" = FrameTask.render (tl.getD j (.single 0)) := by
  rw [List.getD_eq_getElem _ _ (by simpa using hj), List.getD_eq_getElem _ _ hj,
    List.getElem_map]

theorem head?_eq_getD {α : Type} (l : List α) (d : α) (h : 0 < l.length) :
    l.head? = some (l.getD 0 d) := by
  rw [List.head?_eq_getElem?, List.getElem?_eq_getElem h, List.getD_eq_getElem _ _ h]

theorem getLast?_eq_getD {α : Type} (l : List α) (d : α) (h : 0 < l.length) :
    l.getLast? = some (l.getD (l.length - 1) d) := by
  rw [List.getLast?_eq_getElem?, List.getElem?_eq_getElem (by omega),
    List.getD_eq_getElem _ _ (by omega)]

/-- A two-frame range with task size 1 yields exactly two single-frame
tasks. -/
theorem taskList_two_singles {f l : Int} (h2 : l - f + 1 = 2) :
    taskList f l 1 = [.single f, .single l] := by
  have hr2 : List.range 2 = [0, 1] := rfl
  have ht2 : (2:Int).toNat = 2 := rfl
  simp only [taskList, Int.fdiv_one, mul_one, h2]
  rw [if_neg (lt_irrefl (1:Int)), if_neg (by omega : ¬ (1:Int) ≤ 2 - 2), ht2, hr2]
  simp only [List.map_cons, List.map_nil, List.append_nil, Nat.cast_zero, Nat.cast_one,
    List.cons.injEq, FrameTask.single.injEq, and_true]
  omega

theorem intRange_pair {f l : Int} (h2 : l - f + 1 = 2) : intRange f l = [f, l] := by
  have ht : (l - f + 1).toNat = 2 := by omega
  have hr2 : List.range 2 = [0, 1] := rfl
  unfold intRange
  rw [ht, hr2]
  simp only [List.map_cons, List.map_nil, Nat.cast_zero, Nat.cast_one,
    List.cons.injEq, and_true]
  omega

/-- A two-frame range with task size ≥ 2 yields a single task. -/
theorem taskList_length_two_big {f l ts : Int} (h2 : l - f + 1 = 2) (hts : 2 ≤ ts) :
    (taskList f l ts).length = 1 := by
  have hts1 : (1:Int) < ts := by omega
  rcases eq_or_lt_of_le hts with heq | hlt
  · have hfd : (2:Int).fdiv ts = 1 := by
      rw [← heq]
      rfl
    simp only [taskList, h2, hfd, if_pos hts1]
    rw [if_neg (by omega : ¬ (1:Int) ≤ 2 - 1 * ts)]
    simp
  · have hfd : (2:Int).fdiv ts = 0 := by
      rw [Int.fdiv_eq_ediv _ (by omega)]
      exact Int.ediv_eq_zero_of_lt (by omega) (by omega)
    simp only [taskList, h2, hfd, if_pos hts1]
    rw [if_pos (by omega : (1:Int) ≤ 2 - 0 * ts)]
    simp

/-- Every task a valid call builds covers at least one frame. -/
theorem taskList_frames_ne_nil {f l ts : Int} (_hfl : f ≤ l) (_hts : 1 ≤ ts) :
    ∀ t ∈ taskList f l ts, FrameTask.frames t ≠ [] := by
  intro t hmem
  simp only [taskList] at hmem
  rcases List.mem_append.mp hmem with hmem | hmem
  · by_cases h1 : (1:Int) < ts
    · rw [if_pos h1] at hmem
      obtain ⟨k, _hk, rfl⟩ := List.mem_map.mp hmem
      simp only [FrameTask.frames]
      intro hnil
      have hl := congrArg List.length hnil
      rw [intRange_length] at hl
      simp only [List.length_nil] at hl
      omega
    · rw [if_neg h1] at hmem
      obtain ⟨k, _hk, rfl⟩ := List.mem_map.mp hmem
      simp [FrameTask.frames]
  · by_cases hlo : (1:Int) ≤ l - f + 1 - (l - f + 1).fdiv ts * ts
    · rw [if_pos hlo] at hmem
      rcases List.mem_singleton.mp hmem with rfl
      simp only [FrameTask.frames]
      intro hnil
      have hl := congrArg List.length hnil
      rw [intRange_length] at hl
      simp only [List.length_nil] at hl
      generalize hA : (l - f + 1).fdiv ts * ts = A at hlo hl
      omega
    · rw [if_neg hlo] at hmem
      simp at hmem

/-- The first task's first frame is the range's first frame. -/
theorem taskList_first_frame {f l ts : Int} (hfl : f ≤ l) (hts : 1 ≤ ts)
    (hne : taskList f l ts ≠ []) :
    ∃ t0, (taskList f l ts).head? = some t0 ∧ (FrameTask.frames t0).head? = some f := by
  obtain ⟨t0, tr, htl⟩ := List.exists_cons_of_ne_nil hne
  refine ⟨t0, by rw [htl]; rfl, ?_⟩
  have hcov := taskList_frames_cover hfl hts
  have hnn : FrameTask.frames t0 ≠ [] :=
    taskList_frames_ne_nil hfl hts t0 (by rw [htl]; exact List.mem_cons_self _ _)
  rw [htl, List.flatMap_cons] at hcov
  have hH := congrArg List.head? hcov
  obtain ⟨a, fr', hfr⟩ := List.exists_cons_of_ne_nil hnn
  rw [hfr, List.cons_append, intRange_head? hfl, List.head?_cons] at hH
  rw [hfr, List.head?_cons]
  exact hH

/-- The last task's last frame is the range's last frame. -/
theorem taskList_last_frame {f l ts : Int} (hfl : f ≤ l) (hts : 1 ≤ ts)
    (hne : taskList f l ts ≠ []) :
    ∃ t1, (taskList f l ts).getLast? = some t1 ∧
      (FrameTask.frames t1).getLast? = some l := by
  rcases List.eq_nil_or_concat (taskList f l ts) with hnil | ⟨L, t1, htl⟩
  · exact absurd hnil hne
  · rw [List.concat_eq_append] at htl
    refine ⟨t1, by rw [htl]; exact List.getLast?_concat L, ?_⟩
    have hcov := taskList_frames_cover hfl hts
    have hnn : FrameTask.frames t1 ≠ [] :=
      taskList_frames_ne_nil hfl hts t1
        (by rw [htl]; exact List.mem_append_right _ (List.mem_singleton.mpr rfl))
    rw [htl, List.flatMap_append, List.flatMap_cons, List.flatMap_nil,
      List.append_nil] at hcov
    have hH := congrArg List.getLast? hcov
    rw [List.getLast?_append_of_ne_nil _ hnn, intRange_getLast? hfl] at hH
    exact hH

/-- The main path of `smartFrameCore`: when at least two tasks are built,
the call succeeds and returns the tokens of the bisection order. -/
theorem smartFrameCore_main {f l ts : Int} (hts0 : ts ≠ 0) (htot2 : l - f + 1 ≠ 2)
    (hT : 2 ≤ (taskList f l ts).length) :
    smartFrameCore f l ts = .ok (pyJoin ","
      ((smartIndexList (taskList f l ts).length).map
        (fun o => ((taskList f l ts).map FrameTask.render).getD o.toNat ""))) := by
  have hlenmap : ((taskList f l ts).map FrameTask.render).length =
      (taskList f l ts).length := List.length_map _ _
  have hperm := smartIndexList_perm (taskList f l ts).length hT
  have hbounds : ∀ o ∈ smartIndexList (taskList f l ts).length,
      0 ≤ o ∧ o < (((taskList f l ts).map FrameTask.render).length : Int) := by
    intro o ho
    have := mem_intRange.mp (hperm.subset ho)
    rw [hlenmap]
    omega
  have hmapM := mapM_pyGetStr_of_bounds _ _ hbounds
  simp only [smartFrameCore]
  rw [if_neg hts0, if_neg htot2, hlenmap, hmapM]

/-! ## The main claims: coverage, spread, rounding, refinement -/

/-- C1 counterexample: for `"1001-1001"` with task size 1 a single task is
built, yet the output is `"1001,1001"` — two tokens for one task, and the
frame 1001 appears twice — so the claim's permutation/no-duplicate property
fails for every valid input with exactly one task. -/
theorem claim_C1_counterexample :
    get_smart_frame_list "1001-1001" 1 = .ok "1001,1001" ∧
    (taskList 1001 1001 1).length = 1 := by decide

/-- C1 (amended): for every valid input that builds at least TWO tasks, the
returned comma-joined token list is a permutation of the tokens of the
task list — as many tokens as tasks — and the concatenation of the emitted
tasks' frame sets is a permutation of the full integer range (no gap, no
duplicate).  (With exactly one task the single token is emitted twice,
cf. C10.) -/
theorem claim_C1_permutation_coverage (f l ts : Int) (hfl : f ≤ l) (hts : 1 ≤ ts)
    (hT : 2 ≤ (taskList f l ts).length) :
    ∃ ot : List FrameTask,
      smartFrameCore f l ts = .ok (pyJoin "," (ot.map FrameTask.render)) ∧
      ot.length = (taskList f l ts).length ∧
      ot.Perm (taskList f l ts) ∧
      (ot.flatMap FrameTask.frames).Perm (intRange f l) := by
  by_cases htot2 : l - f + 1 = 2
  · have hts1 : ts = 1 := by
      by_contra hne
      have hlen1 := taskList_length_two_big htot2 (show (2:Int) ≤ ts by omega)
      omega
    subst hts1
    have htl := taskList_two_singles htot2
    refine ⟨[.single f, .single l], ?_, ?_, ?_, ?_⟩
    · simp only [smartFrameCore]
      rw [if_neg (by omega : ¬ (1:Int) = 0), if_pos htot2]
      rfl
    · rw [htl]
    · rw [htl]
    · have hfr : ([FrameTask.single f, .single l].flatMap FrameTask.frames) = [f, l] := rfl
      rw [hfr, intRange_pair htot2]
  · have hts0 : ts ≠ 0 := by omega
    have hmain := smartFrameCore_main hts0 htot2 hT
    have hperm := smartIndexList_perm (taskList f l ts).length hT
    have hbounds : ∀ o ∈ smartIndexList (taskList f l ts).length,
        0 ≤ o ∧ o < ((taskList f l ts).length : Int) := fun o ho => by
      have := mem_intRange.mp (hperm.subset ho)
      omega
    have hot : ((smartIndexList (taskList f l ts).length).map
        (fun o => (taskList f l ts).getD o.toNat (.single 0))).Perm (taskList f l ts) := by
      have h1 := map_getD_full_range (FrameTask.single 0) (taskList f l ts) (by omega)
      have h2 := hperm.map (fun o => (taskList f l ts).getD o.toNat (.single 0))
      rw [h1] at h2
      exact h2
    refine ⟨(smartIndexList (taskList f l ts).length).map
      (fun o => (taskList f l ts).getD o.toNat (.single 0)), ?_, ?_, hot, ?_⟩
    · rw [hmain, List.map_map]
      congr 2
      apply List.map_congr_left
      intro o ho
      have hb := hbounds o ho
      exact getD_map_render (taskList f l ts) (by omega)
    · rw [List.length_map]
      have h := hperm.length_eq
      rw [intRange_length] at h
      omega
    · have hf := List.Perm.flatMap_right FrameTask.frames hot
      rw [taskList_frames_cover hfl hts] at hf
      exact hf

/-- C1 witness at the documented example. -/
theorem claim_C1_witness :
    (1001:Int) ≤ 1005 ∧ (1:Int) ≥ 1 ∧ 2 ≤ (taskList 1001 1005 1).length ∧
    (∃ ot : List FrameTask,
      smartFrameCore 1001 1005 1 = .ok (pyJoin "," (ot.map FrameTask.render)) ∧
      ot.length = (taskList 1001 1005 1).length ∧
      ot.Perm (taskList 1001 1005 1) ∧
      (ot.flatMap FrameTask.frames).Perm (intRange 1001 1005)) :=
  ⟨by decide, by decide, by decide,
    claim_C1_permutation_coverage 1001 1005 1 (by decide) (by decide) (by decide)⟩

/-- C6: with more than two tasks, the first emitted token is the first
task's (whose first frame is `F`) and the second emitted token is the last
task's (whose last frame is `L`). -/
theorem claim_C6_first_two_spread (f l ts : Int) (hfl : f ≤ l) (hts : 1 ≤ ts)
    (hT : 3 ≤ (taskList f l ts).length) :
    ∃ (t0 t1 : FrameTask) (rest : List String),
      smartFrameCore f l ts =
        .ok (pyJoin "," (FrameTask.render t0 :: FrameTask.render t1 :: rest)) ∧
      (taskList f l ts).head? = some t0 ∧
      (taskList f l ts).getLast? = some t1 ∧
      (FrameTask.frames t0).head? = some f ∧
      (FrameTask.frames t1).getLast? = some l := by
  have htot2 : l - f + 1 ≠ 2 := by
    intro h2
    rcases eq_or_lt_of_le hts with heq | hlt
    · have := taskList_two_singles h2
      rw [← heq] at hT
      rw [this] at hT
      simp at hT
    · have := taskList_length_two_big h2 (show (2:Int) ≤ ts by omega)
      omega
  have hts0 : ts ≠ 0 := by omega
  have hne : taskList f l ts ≠ [] := by
    intro h
    rw [h] at hT
    simp at hT
  have hn1 : 0 < (taskList f l ts).length := by omega
  obtain ⟨t0, hh0, hhf⟩ := taskList_first_frame hfl hts hne
  obtain ⟨t1, hl1, hlf⟩ := taskList_last_frame hfl hts hne
  -- the order starts 0, n-1
  obtain ⟨r, hr⟩ := iterate_bisectStep_prefix
    ([0, ((taskList f l ts).length : Int) - 1],
      (0, ((taskList f l ts).length : Int) - 1)) ((taskList f l ts).length - 2)
  have horder : smartIndexList (taskList f l ts).length =
      0 :: (((taskList f l ts).length : Int) - 1) :: r := by
    unfold smartIndexList
    rw [hr]
    rfl
  refine ⟨t0, t1,
    r.map (fun o => ((taskList f l ts).map FrameTask.render).getD o.toNat ""),
    ?_, hh0, hl1, hhf, hlf⟩
  rw [smartFrameCore_main hts0 htot2 (by omega), horder]
  simp only [List.map_cons]
  have ht0 : (taskList f l ts).getD 0 (.single 0) = t0 := by
    have h := head?_eq_getD (taskList f l ts) (FrameTask.single 0) hn1
    rw [hh0] at h
    exact (Option.some.inj h).symm
  have ht1 : (taskList f l ts).getD ((taskList f l ts).length - 1) (.single 0) = t1 := by
    have h := getLast?_eq_getD (taskList f l ts) (FrameTask.single 0) hn1
    rw [hl1] at h
    exact (Option.some.inj h).symm
  have hg0 : ((taskList f l ts).map FrameTask.render).getD (0:Int).toNat "" =
      FrameTask.render t0 := by
    rw [Int.toNat_zero, getD_map_render _ hn1, ht0]
  have hcast : ((((taskList f l ts).length : Int)) - 1).toNat =
      (taskList f l ts).length - 1 := by omega
  have hg1 : ((taskList f l ts).map FrameTask.render).getD
      ((((taskList f l ts).length : Int)) - 1).toNat "" = FrameTask.render t1 := by
    rw [hcast, getD_map_render _ (by omega), ht1]
  rw [hg0, hg1]

/-- C6 witness at the documented example. -/
theorem claim_C6_witness :
    (1001:Int) ≤ 1005 ∧ 3 ≤ (taskList 1001 1005 1).length ∧
    (∃ (t0 t1 : FrameTask) (rest : List String),
      smartFrameCore 1001 1005 1 =
        .ok (pyJoin "," (FrameTask.render t0 :: FrameTask.render t1 :: rest)) ∧
      (taskList 1001 1005 1).head? = some t0 ∧
      (taskList 1001 1005 1).getLast? = some t1 ∧
      (FrameTask.frames t0).head? = some 1001 ∧
      (FrameTask.frames t1).getLast? = some 1005) :=
  ⟨by decide, by decide,
    claim_C6_first_two_spread 1001 1005 1 (by decide) (by decide) (by decide)⟩

/-- C8 counterexample: with 6 tasks the first bisection step selects the
pair `(0, 5)`, whose mean is `2.5`; round-half-up would append `3`, but the
code appends the Python value `round(2.5) = 2` (ties to even), as the produced
order shows. -/
theorem claim_C8_counterexample :
    smartIndexList 6 = [0, 5, 2, 4, 1, 3] ∧
    (gapScan (List.insertionSort (· ≤ ·) [0, 5]) (0, 5)).1 = (0, 5) ∧
    pyRoundHalf (0 + 5) = 2 ∧ roundHalfUpSpec (0 + 5) = 3 := by decide

/-- C8 (amended): every bisection step appends `pyRoundHalf` of the sum of
the selected pair, and that is the integer nearest to the mean of the pair
with ties rounded half to EVEN (Python 3 `round`), not half-up: twice the result is the
sum when the sum is even, and otherwise differs from the sum by exactly one
with the result even. -/
theorem claim_C8_round_half_even (a b : Int) :
    (∀ st : List Int × (Int × Int),
        (bisectStep st).1 = st.1 ++
          [pyRoundHalf ((gapScan (st.1.insertionSort (· ≤ ·)) st.2).1.1 +
            (gapScan (st.1.insertionSort (· ≤ ·)) st.2).1.2)]) ∧
    ((a + b) % 2 = 0 → 2 * pyRoundHalf (a + b) = a + b) ∧
    ((a + b) % 2 ≠ 0 → pyRoundHalf (a + b) % 2 = 0 ∧
        (2 * pyRoundHalf (a + b) - (a + b) = 1 ∨
         2 * pyRoundHalf (a + b) - (a + b) = -1)) := by
  refine ⟨fun st => rfl, ?_, ?_⟩
  · intro h
    unfold pyRoundHalf
    rw [if_pos h, Int.fdiv_eq_ediv _ (by norm_num)]
    omega
  · intro h
    unfold pyRoundHalf
    rw [if_neg h, Int.fdiv_eq_ediv _ (by norm_num)]
    split_ifs <;> omega

/-- C8 witness at the tied pair `(0, 5)`. -/
theorem claim_C8_witness :
    ((0 + 5 : Int) % 2 ≠ 0) ∧ pyRoundHalf (0 + 5) % 2 = 0 ∧
      (2 * pyRoundHalf (0 + 5) - (0 + 5) = 1 ∨
       2 * pyRoundHalf (0 + 5) - (0 + 5) = -1) :=
  ⟨by decide, (claim_C8_round_half_even 0 5).2.2 (by decide)⟩

/-- C9: the wraparound comparison is never load-bearing.  On every strictly
sorted list the inner loop selects the same pair as the simplified
left-to-right scan of the spec whatever candidate pair is carried in; consequently the
bisection order and the whole function agree with the simplified
formulation on every input. -/
theorem claim_C9_wraparound_equiv :
    (∀ (S : List Int) (p0 : Int × Int), S.Sorted (· < ·) → 2 ≤ S.length →
        (gapScan S p0).1 = simpleGapScan S) ∧
    (∀ n : Nat, smartIndexListSimple n = smartIndexList n) ∧
    (∀ f l ts : Int, smartFrameCoreSimple f l ts = smartFrameCore f l ts) := by
  refine ⟨fun S p0 hs hlen => gapScan_eq_simpleGapScan p0 hlen hs,
    smartIndexListSimple_eq, ?_⟩
  intro f l ts
  simp only [smartFrameCoreSimple, smartFrameCore, smartIndexListSimple_eq]

/-- C9 witness on a concrete sorted state and the documented inputs. -/
theorem claim_C9_witness :
    (gapScan [0, 2, 4] (0, 4)).1 = simpleGapScan [0, 2, 4] ∧
    smartIndexListSimple 6 = smartIndexList 6 ∧
    smartFrameCoreSimple 1001 1006 1 = smartFrameCore 1001 1006 1 :=
  ⟨claim_C9_wraparound_equiv.1 [0, 2, 4] (0, 4) (by decide) (by decide),
    claim_C9_wraparound_equiv.2.1 6,
    claim_C9_wraparound_equiv.2.2 1001 1006 1⟩

/-- C5: with `taskSize > 1` the full tasks are contiguous left-to-right
`taskSize`-frame spans, a leftover remainder becomes a final dashed span
(even for a single frame, rendered `"N-N"`), the tasks cover the range
exactly, and the chunking example produces the documented four tasks and
output. -/
theorem claim_C5_chunking (f l ts : Int) (hfl : f ≤ l) (hts : 2 ≤ ts) :
    (∀ k : Nat, (k : Int) < (l - f + 1).fdiv ts →
      (taskList f l ts)[k]? =
        some (.span ((k : Int) * ts + f) ((k : Int) * ts + ts + f - 1))) ∧
    (1 ≤ (l - f + 1) - (l - f + 1).fdiv ts * ts →
      (taskList f l ts).getLast? =
        some (.span ((l - f + 1).fdiv ts * ts + f) l)) ∧
    (taskList f l ts).flatMap FrameTask.frames = intRange f l ∧
    FrameTask.render (.span 1010 1010) = "1010-1010" ∧
    (taskList 1001 1010 3).map FrameTask.render =
      ["1001-1003", "1004-1006", "1007-1009", "1010-1010"] ∧
    get_smart_frame_list "1001-1010" 3 =
      .ok "1001-1003,1010-1010,1007-1009,1004-1006" :=
  ⟨fun _k hk => taskList_getElem_full (by omega) hk,
    fun hlo => taskList_getLast_leftover hlo,
    taskList_frames_cover hfl (by omega), by decide, by decide, by decide⟩

/-- C5 witness at the chunking example. -/
theorem claim_C5_witness :
    (taskList 1001 1010 3)[1]? = some (.span 1004 1006) ∧
    (taskList 1001 1010 3).getLast? = some (.span 1010 1010) := by
  have h := claim_C5_chunking 1001 1010 3 (by decide) (by decide)
  constructor
  · exact h.1 1 (by decide)
  · exact h.2.1 (by decide)
